import Mathlib

/-!
Shallow embedding of the poker betting-round / hand-resolution engine of
`src/main.cpp` (a single-file C++ Texas Hold'em simulation), together with
theorems settling the frozen claims about it.

Conventions of the embedding:
* C++ `int` values (chips, pot, currentBet, scores) are modelled as `Int`;
  all amounts in play are tiny, far from 32-bit overflow, so no wrap-around
  modelling is required.
* Console I/O is dropped; the strings pushed into `actionHistory`
  (`list<string>& actionHistory`, appended via `push_back`) are kept.
* Nondeterminism (`rand() % 4` for a bot, the validated console choice for
  a human) is passed in explicitly as an oracle argument; the human input
  validation loop of `main.cpp` lines 255-298 guarantees the chosen token
  is one of Bet/Raise/Call/Check/Fold and a Bet/Raise amount is positive,
  which theorems state as a hypothesis where it matters.
* `throw runtime_error(...)` (deck exhaustion) becomes `Except String`.
-/

namespace Poker

/-- The C++ `class Card` of main.cpp lines 42-52: a rank and a suit, both strings.
The parameterized constructor takes `(cardRank, cardSuit)`. -/
structure Card where
  rank : String
  suit : String
deriving DecidableEq

/-- The C++ default constructor `Card()` uses empty strings. -/
def defaultCard : Card := ⟨"", ""⟩

/-- The C++ `class Player` of main.cpp lines 173-415: name, two-card hand, chips,
fold flag and lifetime counters.  The C++ default constructor starts with
1000 chips, not folded, all counters zero. -/
structure Player where
  name : String
  hand : Card × Card
  chips : Int
  folded : Bool
  gamesWon : Int
  handsPlayed : Int
  handsWon : Int
deriving DecidableEq

/-- The C++ default constructor `Player()` (main.cpp line 184). -/
def defaultPlayer : Player :=
  { name := "", hand := (defaultCard, defaultCard), chips := 1000,
    folded := false, gamesWon := 0, handsPlayed := 0, handsWon := 0 }

/-- The shared mutable round state threaded through `takeAction` by
reference in main.cpp: `int currentBet`, `int pot`,
`list<string> actionHistory` (gameLoop lines 758-760). -/
structure RoundState where
  currentBet : Int
  pot : Int
  actionHistory : List String
deriving DecidableEq

/-- The multiset (as a list) of ranks that `evaluateHandStrength`
(main.cpp lines 356-366) tallies: the ranks of the first `communitySize`
community cards followed by the two hole cards.  The caller passes the
visible community cards directly as a list. -/
def ranksOf (hand : Card × Card) (community : List Card) : List String :=
  community.map Card.rank ++ [hand.1.rank, hand.2.rank]

/-- The per-rank contribution of main.cpp lines 369-379: frequency 2 adds
2, frequency 3 adds 6, frequency 4 adds 10, anything else adds 0. -/
def contrib (n : Nat) : Int :=
  if n = 2 then 2 else if n = 3 then 6 else if n = 4 then 10 else 0

/-- Embedding of `Player::evaluateHandStrength` (main.cpp lines 356-382): tally rank
frequencies over community-then-hole cards in a `map<string,int>`, then
sum the per-rank contributions.  The C++ `map` iterates each distinct
rank once; `List.dedup` enumerates exactly the distinct ranks, and the
sum is iteration-order independent. -/
def evaluateHandStrength (p : Player) (community : List Card) : Int :=
  ((ranksOf p.hand community).dedup.map
    (fun r => contrib ((ranksOf p.hand community).count r))).sum

/-- Modelled from the spec wording of claim C2 (spec.md §4.2): the sum
over the set of distinct ranks of the union of hole and visible community
cards of 2/6/10 according to whether the rank occurs exactly two, three
or four times, 0 otherwise.  Stated over a `Finset`, so no iteration
order or duplication is involved; compared against the code-derived
`evaluateHandStrength`. -/
def scoreSpec (hand : Card × Card) (community : List Card) : Int :=
  (ranksOf hand community).toFinset.sum fun r =>
    if (ranksOf hand community).count r = 2 then 2
    else if (ranksOf hand community).count r = 3 then 6
    else if (ranksOf hand community).count r = 4 then 10
    else 0

theorem toFinset_sum_eq_dedup_sum (l : List String) (f : String → Int) :
    l.toFinset.sum f = (l.dedup.map f).sum := rfl

/-- Concrete hands used for the particular cases of claim C2. -/
def playerWith (c1 c2 : Card) : Player :=
  { defaultPlayer with hand := (c1, c2) }

/-- C2: the hand score is the sum over distinct ranks of the union of
hole and visible community cards of 2 for an exact pair, 6 for an exact
triple, 10 for an exact quad, 0 otherwise; in particular no repeated rank
scores 0, one pair 2, one triple 6, one quad 10, and a pair plus a
separate triple 8. -/
theorem evaluateHandStrength_spec :
    (∀ (p : Player) (community : List Card),
      evaluateHandStrength p community = scoreSpec p.hand community)
    ∧ evaluateHandStrength (playerWith ⟨"Ace", "Hearts"⟩ ⟨"King", "Spades"⟩)
        [⟨"Queen", "Clubs"⟩, ⟨"Jack", "Diamonds"⟩, ⟨"9", "Hearts"⟩] = 0
    ∧ evaluateHandStrength (playerWith ⟨"Ace", "Hearts"⟩ ⟨"Ace", "Spades"⟩)
        [⟨"Queen", "Clubs"⟩, ⟨"Jack", "Diamonds"⟩, ⟨"9", "Hearts"⟩] = 2
    ∧ evaluateHandStrength (playerWith ⟨"Ace", "Hearts"⟩ ⟨"Ace", "Spades"⟩)
        [⟨"Ace", "Clubs"⟩, ⟨"Jack", "Diamonds"⟩, ⟨"9", "Hearts"⟩] = 6
    ∧ evaluateHandStrength (playerWith ⟨"Ace", "Hearts"⟩ ⟨"Ace", "Spades"⟩)
        [⟨"Ace", "Clubs"⟩, ⟨"Ace", "Diamonds"⟩, ⟨"9", "Hearts"⟩] = 10
    ∧ evaluateHandStrength (playerWith ⟨"King", "Hearts"⟩ ⟨"King", "Spades"⟩)
        [⟨"Ace", "Clubs"⟩, ⟨"Ace", "Diamonds"⟩, ⟨"Ace", "Hearts"⟩] = 8 := by
  refine ⟨fun p community => ?_, by decide, by decide, by decide, by decide, by decide⟩
  rw [scoreSpec, toFinset_sum_eq_dedup_sum]
  rfl

/-- The constant `MAX_CARDS` of main.cpp line 29. -/
def MAX_CARDS : Nat := 52

/-- The C++ `class Deck` of main.cpp lines 66-110: an ordered sequence of cards
plus `topCardIndex`, the cursor marking the next undealt position.  The
C++ member is a fixed array `Card cards[52]`; it is modelled as a list
whose length-52 invariant is carried as a hypothesis where needed. -/
structure Deck where
  cards : List Card
  topCardIndex : Nat
deriving DecidableEq

/-- The rank symbols of the `Deck()` constructor (main.cpp line 74). -/
def rankNames : List String :=
  ["2", "3", "4", "5", "6", "7", "8", "9", "10", "Jack", "Queen", "King", "Ace"]

/-- The suit symbols of the `Deck()` constructor (main.cpp line 73). -/
def suitNames : List String := ["Hearts", "Diamonds", "Clubs", "Spades"]

/-- The nested population loop of the `Deck()` constructor (main.cpp
lines 78-82): for each suit in order, one card per rank in order. -/
def buildCards : List String → List Card
  | [] => []
  | s :: rest => rankNames.map (fun r => ⟨r, s⟩) ++ buildCards rest

/-- The constructor `Deck()` (main.cpp lines 72-83): all 52 cards, cursor at 0. -/
def Deck.init : Deck := ⟨buildCards suitNames, 0⟩

/-- Embedding of `Deck::dealCard` (main.cpp lines 96-103): if the cursor is below 52,
return the card there and advance the cursor; otherwise throw
`runtime_error("No cards left in the deck.")` (the spec's ExhaustedDeck
error). -/
def dealCard (d : Deck) : Except String (Card × Deck) :=
  if d.topCardIndex < MAX_CARDS then
    .ok (d.cards.getD d.topCardIndex defaultCard,
         { d with topCardIndex := d.topCardIndex + 1 })
  else
    .error "No cards left in the deck."

/-- Embedding of `Deck::reset` (main.cpp lines 107-109): cursor back to 0, cards
untouched. -/
def Deck.reset (d : Deck) : Deck := { d with topCardIndex := 0 }

/-- Whether an `Except` result is the error case. -/
def failed {α : Type} : Except String α → Bool
  | .ok _ => false
  | .error _ => true

/-- Runs `n` consecutive `dealCard` calls, stopping at the first error. -/
def deals : Nat → Deck → Except String (List Card × Deck)
  | 0, d => .ok ([], d)
  | n + 1, d =>
    match dealCard d with
    | .ok (c, d2) =>
      match deals n d2 with
      | .ok (cs, d3) => .ok (c :: cs, d3)
      | .error e => .error e
    | .error e => .error e

theorem deals_ok_of_le (n : Nat) : ∀ d : Deck, d.topCardIndex + n ≤ 52 →
    ∃ cs : List Card, deals n d = .ok (cs, ⟨d.cards, d.topCardIndex + n⟩) := by
  induction n with
  | zero => intro d _; exact ⟨[], rfl⟩
  | succ n ih =>
    intro d h
    have hlt : d.topCardIndex < MAX_CARDS := by
      unfold MAX_CARDS; omega
    obtain ⟨cs, hcs⟩ := ih ⟨d.cards, d.topCardIndex + 1⟩ (by simp; omega)
    refine ⟨d.cards.getD d.topCardIndex defaultCard :: cs, ?_⟩
    simp only [deals, dealCard, if_pos hlt, hcs]
    have : d.topCardIndex + 1 + n = d.topCardIndex + (n + 1) := by omega
    rw [this]

theorem deals_err_of_gt (n : Nat) : ∀ d : Deck, d.topCardIndex ≤ 52 →
    52 < d.topCardIndex + n → failed (deals n d) = true := by
  induction n with
  | zero => intro d h1 h2; omega
  | succ n ih =>
    intro d h1 h2
    by_cases hlt : d.topCardIndex < MAX_CARDS
    · have hle : d.topCardIndex + 1 ≤ 52 := by
        simp only [MAX_CARDS] at hlt; omega
      have := ih ⟨d.cards, d.topCardIndex + 1⟩ (by simpa using hle) (by simp; omega)
      simp only [deals, dealCard, if_pos hlt]
      revert this
      cases deals n (⟨d.cards, d.topCardIndex + 1⟩ : Deck) with
      | ok v => simp [failed]
      | error e => simp [failed]
    · simp only [deals, dealCard, if_neg hlt, failed]

/-- C6: with the deck invariant `topCardIndex ≤ 52`, `dealCard` returns
the card at the cursor and advances the cursor by one exactly when the
cursor is below 52, and errors exactly when the cursor is 52; `reset`
rewinds the cursor to 0 without changing the cards; 52 deals from a
reset deck succeed and a 53rd deal fails. -/
theorem dealCard_spec (d : Deck) (hinv : d.topCardIndex ≤ 52) :
    (d.topCardIndex < 52 →
      dealCard d = .ok (d.cards.getD d.topCardIndex defaultCard,
        ⟨d.cards, d.topCardIndex + 1⟩)) ∧
    (failed (dealCard d) = true ↔ d.topCardIndex = 52) ∧
    Deck.reset d = ⟨d.cards, 0⟩ ∧
    (∃ cs : List Card, deals 52 (Deck.reset d) = .ok (cs, ⟨d.cards, 52⟩)) ∧
    failed (deals 53 (Deck.reset d)) = true := by
  refine ⟨?_, ?_, rfl, ?_, ?_⟩
  · intro h
    simp [dealCard, MAX_CARDS, h]
  · constructor
    · intro h
      by_contra hne
      have hlt : d.topCardIndex < MAX_CARDS := by unfold MAX_CARDS; omega
      simp [dealCard, if_pos hlt, failed] at h
    · intro h
      have : ¬ d.topCardIndex < MAX_CARDS := by unfold MAX_CARDS; omega
      simp [dealCard, if_neg this, failed]
  · simpa using deals_ok_of_le 52 (Deck.reset d) (by simp [Deck.reset])
  · exact deals_err_of_gt 53 (Deck.reset d) (by simp [Deck.reset]) (by simp [Deck.reset])

/-- Witness for C6 at the freshly constructed deck. -/
theorem dealCard_spec_witness :
    Deck.init.topCardIndex ≤ 52 ∧
    (Deck.init.topCardIndex < 52 →
      dealCard Deck.init = .ok (Deck.init.cards.getD Deck.init.topCardIndex defaultCard,
        ⟨Deck.init.cards, Deck.init.topCardIndex + 1⟩)) ∧
    (failed (dealCard Deck.init) = true ↔ Deck.init.topCardIndex = 52) ∧
    Deck.reset Deck.init = ⟨Deck.init.cards, 0⟩ ∧
    (∃ cs : List Card, deals 52 (Deck.reset Deck.init) = .ok (cs, ⟨Deck.init.cards, 52⟩)) ∧
    failed (deals 53 (Deck.reset Deck.init)) = true := by
  have h : Deck.init.topCardIndex ≤ 52 := by decide
  exact ⟨h, dealCard_spec Deck.init h⟩

/-- The four bot actions of the `switch` in `Player::takeAction`
(main.cpp lines 208-250): case 0 bet/raise, case 1 call/check,
case 2 fold, case 3 bluff.  The case index comes from `rand() % 4`,
passed in here as the resolved oracle value. -/
inductive BotChoice where
  | betRaise
  | callCheck
  | fold
  | bluff
deriving DecidableEq

/-- The validated human console choice (main.cpp lines 256-298).  The
re-prompt loop only exits on one of the five tokens; `Bet` and `Raise`
run the same branch, so they share one constructor carrying the entered
amount.  The amount-validation loop (lines 262-266) only accepts a
positive amount; theorems that depend on that state it as a
hypothesis. -/
inductive HumanChoice where
  | betRaise (amount : Int)
  | call
  | check
  | fold
deriving DecidableEq

/-- Whether a character list starts with the three characters "Bot". -/
def startsWithBot : List Char → Bool
  | 'B' :: 'o' :: 't' :: _ => true
  | _ => false

/-- Whether "Bot" occurs as a substring, scanning every position. -/
def hasBot : List Char → Bool
  | [] => false
  | c :: rest => startsWithBot (c :: rest) || hasBot rest

/-- The dispatch test of main.cpp line 204 (find of the substring Bot in the name): the player is
bot-controlled iff the name contains the substring "Bot". -/
def isBot (p : Player) : Bool := hasBot p.name.data

/-- Append one record to the action history (`actionHistory.push_back`). -/
def logAction (rs : RoundState) (msg : String) : RoundState :=
  { rs with actionHistory := rs.actionHistory ++ [msg] }

/-- The `switch (action)` body of the bot branch of `Player::takeAction`
(main.cpp lines 208-250), acting on an already-resolved case. -/
def botSwitch (p : Player) (rs : RoundState)
    (choice : BotChoice) : Player × RoundState :=
  match choice with
  | .betRaise =>
    let betAmount := min 50 p.chips
    if rs.currentBet < betAmount then
      ({ p with chips := p.chips - betAmount },
       logAction { rs with currentBet := betAmount, pot := rs.pot + betAmount }
         (p.name ++ " raises to " ++ toString betAmount ++ " chips."))
    else
      ({ p with chips := p.chips - betAmount },
       logAction { rs with pot := rs.pot + betAmount }
         (p.name ++ " bets " ++ toString betAmount ++ " chips."))
  | .callCheck =>
    if rs.currentBet ≤ p.chips then
      ({ p with chips := p.chips - rs.currentBet },
       logAction { rs with pot := rs.pot + rs.currentBet }
         (p.name ++ " calls " ++ toString rs.currentBet ++ " chips."))
    else
      (p, logAction rs (p.name ++ " checks."))
  | .fold =>
    ({ p with folded := true }, logAction rs (p.name ++ " folds."))
  | .bluff =>
    if rs.currentBet + 20 ≤ p.chips then
      ({ p with chips := p.chips - 20 },
       logAction { rs with currentBet := rs.currentBet + 20, pot := rs.pot + 20 }
         (p.name ++ " bluffs with " ++ toString (20 : Int) ++ " chips."))
    else
      (p, rs)

/-- The bot branch of `Player::takeAction` (main.cpp lines 204-251).
The case is forced to 0 (bet/raise) when the scored hand strength
exceeds 5, otherwise it is the oracle's `rand() % 4` outcome
(line 206). -/
def takeActionBot (p : Player) (rs : RoundState) (community : List Card)
    (randChoice : BotChoice) : Player × RoundState :=
  botSwitch p rs
    (if 5 < evaluateHandStrength p community then BotChoice.betRaise else randChoice)

/-- The human branch of `Player::takeAction` (main.cpp lines 253-299).
Bet/Raise: cap the amount at the available chips (lines 267-270), raise
`currentBet` if the capped amount exceeds it (lines 271-273), move the
chips and log (lines 274-276).  Call: only with sufficient chips (lines
278-287); the insufficient case prints a console message and logs
NOTHING.  Check and Fold log and update the fold flag. -/
def takeActionHuman (p : Player) (rs : RoundState)
    (choice : HumanChoice) : Player × RoundState :=
  match choice with
  | .betRaise amount =>
    let betAmount := if p.chips < amount then p.chips else amount
    let rs1 := if rs.currentBet < betAmount then { rs with currentBet := betAmount }
               else rs
    ({ p with chips := p.chips - betAmount },
     logAction { rs1 with pot := rs1.pot + betAmount }
       (p.name ++ " bets " ++ toString betAmount ++ " chips."))
  | .call =>
    if rs.currentBet ≤ p.chips then
      ({ p with chips := p.chips - rs.currentBet },
       logAction { rs with pot := rs.pot + rs.currentBet }
         (p.name ++ " calls " ++ toString rs.currentBet ++ " chips."))
    else
      (p, rs)
  | .check => (p, logAction rs (p.name ++ " checks."))
  | .fold => ({ p with folded := true }, logAction rs (p.name ++ " folds."))

/-- Embedding of `Player::takeAction` (main.cpp lines 201-300): early return when
folded (line 202), then dispatch on the "Bot" name substring. -/
def takeAction (p : Player) (rs : RoundState) (community : List Card)
    (randChoice : BotChoice) (humanChoice : HumanChoice) : Player × RoundState :=
  if p.folded then (p, rs)
  else if isBot p then takeActionBot p rs community randChoice
  else takeActionHuman p rs humanChoice

theorem botSwitch_conserves (p : Player) (rs : RoundState) (c : BotChoice) :
    (botSwitch p rs c).1.chips + (botSwitch p rs c).2.pot = p.chips + rs.pot := by
  cases c <;> dsimp only [botSwitch, logAction] <;> (try split_ifs) <;>
    (try dsimp only) <;> ring

theorem humanChoice_conserves (p : Player) (rs : RoundState) (hc : HumanChoice) :
    (takeActionHuman p rs hc).1.chips + (takeActionHuman p rs hc).2.pot
      = p.chips + rs.pot := by
  cases hc <;> dsimp only [takeActionHuman, logAction] <;> (try split_ifs) <;>
    (try dsimp only) <;> ring

/-- C10: a single `takeAction` call conserves chips between the acting
player and the pot: the acting player's chips plus the pot is unchanged,
whichever branch runs. -/
theorem takeAction_conserves (p : Player) (rs : RoundState) (community : List Card)
    (bc : BotChoice) (hc : HumanChoice) :
    (takeAction p rs community bc hc).1.chips + (takeAction p rs community bc hc).2.pot
      = p.chips + rs.pot := by
  unfold takeAction
  split_ifs with h1 h2
  · rfl
  · unfold takeActionBot
    exact botSwitch_conserves p rs _
  · exact humanChoice_conserves p rs hc

/-- The human amount-validation loop (main.cpp lines 262-266) re-prompts
until the entered Bet/Raise amount is positive; other choices carry no
amount. -/
def validAmount : HumanChoice → Prop
  | .betRaise a => 0 < a
  | _ => True

theorem botSwitch_nonneg (p : Player) (rs : RoundState) (c : BotChoice)
    (hchips : 0 ≤ p.chips) (hpot : 0 ≤ rs.pot) (hbet : 0 ≤ rs.currentBet) :
    0 ≤ (botSwitch p rs c).1.chips ∧ 0 ≤ (botSwitch p rs c).2.pot ∧
    0 ≤ (botSwitch p rs c).2.currentBet := by
  cases c <;> dsimp only [botSwitch, logAction] <;> (try simp only [min_def]) <;>
    (try split_ifs) <;> (try dsimp only) <;> omega

theorem humanChoice_nonneg (p : Player) (rs : RoundState) (hc : HumanChoice)
    (hchips : 0 ≤ p.chips) (hpot : 0 ≤ rs.pot) (hbet : 0 ≤ rs.currentBet)
    (hamount : validAmount hc) :
    0 ≤ (takeActionHuman p rs hc).1.chips ∧ 0 ≤ (takeActionHuman p rs hc).2.pot ∧
    0 ≤ (takeActionHuman p rs hc).2.currentBet := by
  cases hc <;> simp only [validAmount] at hamount <;>
    dsimp only [takeActionHuman, logAction] <;> (try split_ifs) <;>
    (try dsimp only) <;> omega

/-- C7: starting from non-negative chips, pot and currentBet, any single
`takeAction` (with a console amount the validation loop would accept)
leaves the acting player's chips, the pot and currentBet
non-negative. -/
theorem takeAction_nonneg (p : Player) (rs : RoundState) (community : List Card)
    (bc : BotChoice) (hc : HumanChoice)
    (hchips : 0 ≤ p.chips) (hpot : 0 ≤ rs.pot) (hbet : 0 ≤ rs.currentBet)
    (hamount : validAmount hc) :
    0 ≤ (takeAction p rs community bc hc).1.chips ∧
    0 ≤ (takeAction p rs community bc hc).2.pot ∧
    0 ≤ (takeAction p rs community bc hc).2.currentBet := by
  unfold takeAction
  split_ifs with h1 h2
  · exact ⟨hchips, hpot, hbet⟩
  · unfold takeActionBot
    exact botSwitch_nonneg p rs _ hchips hpot hbet
  · exact humanChoice_nonneg p rs hc hchips hpot hbet hamount

/-- Witness for C7: a human bet of 30 from 100 chips. -/
theorem takeAction_nonneg_witness :
    let p : Player := { name := "Ann", hand := (defaultCard, defaultCard),
                        chips := 100, folded := false, gamesWon := 0,
                        handsPlayed := 0, handsWon := 0 }
    let rs : RoundState := ⟨0, 0, []⟩
    0 ≤ (takeAction p rs [] BotChoice.callCheck (HumanChoice.betRaise 30)).1.chips ∧
    0 ≤ (takeAction p rs [] BotChoice.callCheck (HumanChoice.betRaise 30)).2.pot ∧
    0 ≤ (takeAction p rs [] BotChoice.callCheck (HumanChoice.betRaise 30)).2.currentBet :=
  takeAction_nonneg _ _ [] BotChoice.callCheck (HumanChoice.betRaise 30)
    (by decide) (by decide) (by decide) (by show (0 : Int) < 30; decide)

/-- A human player with too few chips to call. -/
def alice : Player :=
  { name := "Alice", hand := (defaultCard, defaultCard), chips := 5,
    folded := false, gamesWon := 0, handsPlayed := 0, handsWon := 0 }

/-- A round state whose current bet exceeds alice's chips. -/
def rsPoor : RoundState := ⟨10, 0, []⟩

/-- Counterexample to C5 as stated: a HUMAN player choosing Call with
chips (5) below currentBet (10) gets no history entry at all — the
player and round state, actionHistory included, come back completely
unchanged, so no check is logged. -/
theorem humanCall_no_log_counterexample :
    takeAction alice rsPoor [] BotChoice.callCheck HumanChoice.call = (alice, rsPoor) ∧
    alice.chips < rsPoor.currentBet ∧
    isBot alice = false ∧
    rsPoor.actionHistory = [] := by
  refine ⟨?_, by decide, by decide, rfl⟩
  rfl

/-- C5 amended: when chips are below currentBet, a BOT choosing
call/check degrades to a logged check with no chip movement, while a
HUMAN choosing Call is refused with no chip movement and NO history
entry; neither raises an error. -/
theorem call_insufficient (p : Player) (rs : RoundState) (community : List Card)
    (bc : BotChoice) (hc : HumanChoice)
    (hfold : p.folded = false) (hpoor : p.chips < rs.currentBet) :
    (isBot p = true → evaluateHandStrength p community ≤ 5 →
      takeAction p rs community BotChoice.callCheck hc
        = (p, logAction rs (p.name ++ " checks."))) ∧
    (isBot p = false →
      takeAction p rs community bc HumanChoice.call = (p, rs)) := by
  constructor
  · intro hb hs
    have hnot : ¬ 5 < evaluateHandStrength p community := by omega
    have hnocall : ¬ rs.currentBet ≤ p.chips := by omega
    simp [takeAction, hfold, hb, takeActionBot, botSwitch, hnot, hnocall]
  · intro hb
    have hnocall : ¬ rs.currentBet ≤ p.chips := by omega
    simp [takeAction, hfold, hb, takeActionHuman, hnocall]

/-- A bot player with too few chips to call. -/
def botPoor : Player :=
  { name := "Bot 1", hand := (defaultCard, defaultCard), chips := 5,
    folded := false, gamesWon := 0, handsPlayed := 0, handsWon := 0 }

/-- Witness for the amended C5 at concrete players on both branches. -/
theorem call_insufficient_witness :
    (takeAction botPoor rsPoor [] BotChoice.callCheck HumanChoice.check
      = (botPoor, logAction rsPoor (botPoor.name ++ " checks."))) ∧
    (takeAction alice rsPoor [] BotChoice.callCheck HumanChoice.call
      = (alice, rsPoor)) :=
  ⟨(call_insufficient botPoor rsPoor [] BotChoice.callCheck HumanChoice.check
      (by decide) (by decide)).1 (by decide) (by decide),
   (call_insufficient alice rsPoor [] BotChoice.callCheck HumanChoice.call
      (by decide) (by decide)).2 (by decide)⟩

/-- One iteration of a betting-round loop in `gameLoop` (main.cpp lines
797-806, repeated verbatim at 829-838, 859-868 and 889-898): if the Turn
Queue is non-empty, pop the front index; if that player is not folded
and has chips, let them act and push the index back; otherwise the
popped index is NOT pushed back.  The oracle `o` resolves the bot's
`rand() % 4` and the human's console choice for this iteration. -/
def passStep (community : List Card) (o : BotChoice × HumanChoice)
    (ps : List Player) (rs : RoundState) (q : List Nat) :
    List Player × RoundState × List Nat :=
  match q with
  | [] => (ps, rs, [])
  | j :: rest =>
    let p := ps.getD j defaultPlayer
    if p.folded = false ∧ 0 < p.chips then
      let r := takeAction p rs community o.1 o.2
      (ps.set j r.1, r.2, rest ++ [j])
    else
      (ps, rs, rest)

/-- Fallback oracle when the supplied list runs short (never reached in
the concrete evaluations below). -/
def defaultOracle : BotChoice × HumanChoice := (BotChoice.callCheck, HumanChoice.check)

/-- A full betting-round pass: `gameLoop` runs the loop body
`numPlayers` times (`for (int i = 0; i < numPlayers; ++i)`), consuming
one oracle entry per iteration. -/
def bettingPass (community : List Card) :
    Nat → List (BotChoice × HumanChoice) → List Player → RoundState → List Nat →
    List Player × RoundState × List Nat
  | 0, _, ps, rs, q => (ps, rs, q)
  | n + 1, os, ps, rs, q =>
    let st := passStep community (os.headD defaultOracle) ps rs q
    bettingPass community n os.tail st.1 st.2.1 st.2.2

theorem passStep_queue_le (community : List Card) (o : BotChoice × HumanChoice)
    (ps : List Player) (rs : RoundState) (q : List Nat) :
    ((passStep community o ps rs q).2.2 : Multiset Nat) ≤ (q : Multiset Nat) := by
  match q with
  | [] => exact le_refl _
  | j :: rest =>
    dsimp only [passStep]
    split_ifs
    · exact le_of_eq (Multiset.coe_eq_coe.mpr (List.perm_append_singleton j rest))
    · dsimp only
      rw [show ((j :: rest : List Nat) : Multiset Nat) = j ::ₘ (rest : Multiset Nat) from rfl]
      exact Multiset.le_cons_self _ _

theorem bettingPass_queue_le (community : List Card) :
    ∀ (n : Nat) (os : List (BotChoice × HumanChoice)) (ps : List Player)
      (rs : RoundState) (q : List Nat),
      ((bettingPass community n os ps rs q).2.2 : Multiset Nat) ≤ (q : Multiset Nat) := by
  intro n
  induction n with
  | zero => intro os ps rs q; exact le_refl _
  | succ n ih =>
    intro os ps rs q
    exact le_trans
      (ih os.tail (passStep community (os.headD defaultOracle) ps rs q).1
        (passStep community (os.headD defaultOracle) ps rs q).2.1
        (passStep community (os.headD defaultOracle) ps rs q).2.2)
      (passStep_queue_le community (os.headD defaultOracle) ps rs q)

/-- Two players who are both folded when the pass begins. -/
def foldedP1 : Player :=
  { name := "P1", hand := (defaultCard, defaultCard), chips := 1000,
    folded := true, gamesWon := 0, handsPlayed := 0, handsWon := 0 }

/-- Second folded player for the queue counterexample. -/
def foldedP2 : Player :=
  { name := "P2", hand := (defaultCard, defaultCard), chips := 1000,
    folded := true, gamesWon := 0, handsPlayed := 0, handsWon := 0 }

/-- Counterexample to C3 as stated: a full two-player betting-round pass
over two folded players pops both indices and re-enqueues neither, so
the queue ends empty and its multiset of player indices is NOT
unchanged. -/
theorem turnQueue_counterexample :
    (bettingPass [] 2 [] [foldedP1, foldedP2] ⟨0, 0, []⟩ [0, 1]).2.2 = [] ∧
    (([] : List Nat) : Multiset Nat) ≠ (([0, 1] : List Nat) : Multiset Nat) := by
  exact ⟨rfl, by decide⟩

/-- C3 amended: a dequeued index whose player is folded or chip-less is
dropped (not re-enqueued) and its player takes no action, while an
eligible index is re-enqueued at the back after acting; hence a betting
pass can only shrink the queue's multiset of indices, never preserve it
when an ineligible index is dequeued. -/
theorem turnQueue_rotation (community : List Card) (o : BotChoice × HumanChoice)
    (ps : List Player) (rs : RoundState) (j : Nat) (rest : List Nat) :
    (((ps.getD j defaultPlayer).folded = false ∧ 0 < (ps.getD j defaultPlayer).chips) →
      (passStep community o ps rs (j :: rest)).2.2 = rest ++ [j]) ∧
    (((ps.getD j defaultPlayer).folded = true ∨ (ps.getD j defaultPlayer).chips ≤ 0) →
      passStep community o ps rs (j :: rest) = (ps, rs, rest)) ∧
    (∀ (n : Nat) (os : List (BotChoice × HumanChoice)) (ps2 : List Player)
       (rs2 : RoundState) (q : List Nat),
      ((bettingPass community n os ps2 rs2 q).2.2 : Multiset Nat) ≤ (q : Multiset Nat)) := by
  refine ⟨fun h => ?_, fun h => ?_, fun n os ps2 rs2 q => bettingPass_queue_le community n os ps2 rs2 q⟩
  · dsimp only [passStep]
    rw [if_pos h]
  · dsimp only [passStep]
    rw [if_neg ?_]
    rintro ⟨h1, h2⟩
    rcases h with h | h
    · rw [h1] at h; exact Bool.false_ne_true h
    · omega

/-- Witness for the amended C3: a live player's index is re-enqueued at
the back, a folded player's index is dropped. -/
theorem turnQueue_rotation_witness :
    (passStep [] defaultOracle [alice] rsPoor [0, 5]).2.2 = [5] ++ [0] ∧
    passStep [] defaultOracle [foldedP1] rsPoor [0, 5] = ([foldedP1], rsPoor, [5]) := by
  refine ⟨(turnQueue_rotation [] defaultOracle [alice] rsPoor 0 [5]).1 (by decide),
          (turnQueue_rotation [] defaultOracle [foldedP1] rsPoor 0 [5]).2.1 (by decide)⟩

theorem botSwitch_persist (p : Player) (rs : RoundState) (c : BotChoice) :
    rs.currentBet ≤ (botSwitch p rs c).2.currentBet ∧
    ∃ t, (botSwitch p rs c).2.actionHistory = rs.actionHistory ++ t := by
  cases c <;> dsimp only [botSwitch, logAction] <;> (try split_ifs) <;>
    (try dsimp only) <;>
    refine ⟨by omega, ?_⟩ <;> first
      | exact ⟨_, rfl⟩
      | exact ⟨[], by simp⟩

theorem humanChoice_persist (p : Player) (rs : RoundState) (hc : HumanChoice) :
    rs.currentBet ≤ (takeActionHuman p rs hc).2.currentBet ∧
    ∃ t, (takeActionHuman p rs hc).2.actionHistory = rs.actionHistory ++ t := by
  cases hc <;> dsimp only [takeActionHuman, logAction] <;> (try split_ifs) <;>
    (try dsimp only) <;>
    refine ⟨by omega, ?_⟩ <;> first
      | exact ⟨_, rfl⟩
      | exact ⟨[], by simp⟩

theorem takeAction_persist (p : Player) (rs : RoundState) (community : List Card)
    (bc : BotChoice) (hc : HumanChoice) :
    rs.currentBet ≤ (takeAction p rs community bc hc).2.currentBet ∧
    ∃ t, (takeAction p rs community bc hc).2.actionHistory = rs.actionHistory ++ t := by
  unfold takeAction
  split_ifs
  · exact ⟨le_refl _, [], by simp⟩
  · unfold takeActionBot
    exact botSwitch_persist p rs _
  · exact humanChoice_persist p rs hc

theorem passStep_persist (community : List Card) (o : BotChoice × HumanChoice)
    (ps : List Player) (rs : RoundState) (q : List Nat) :
    rs.currentBet ≤ (passStep community o ps rs q).2.1.currentBet ∧
    ∃ t, (passStep community o ps rs q).2.1.actionHistory = rs.actionHistory ++ t := by
  match q with
  | [] => exact ⟨le_refl _, [], (List.append_nil _).symm⟩
  | j :: rest =>
    dsimp only [passStep]
    split_ifs
    · exact takeAction_persist _ rs community o.1 o.2
    · exact ⟨le_refl _, [], (List.append_nil _).symm⟩

/-- C4 amended: the round state is NOT recreated per betting round; it
persists.  Across any betting-round pass `currentBet` never decreases
and `actionHistory` is only ever extended (the old history stays as an
initial segment); nothing in a pass resets pot, currentBet or the
history, so a later betting round starts from whatever the previous
rounds left behind. -/
theorem roundState_persists (community : List Card) :
    ∀ (n : Nat) (os : List (BotChoice × HumanChoice)) (ps : List Player)
      (rs : RoundState) (q : List Nat),
      rs.currentBet ≤ (bettingPass community n os ps rs q).2.1.currentBet ∧
      ∃ t, (bettingPass community n os ps rs q).2.1.actionHistory
             = rs.actionHistory ++ t := by
  intro n
  induction n with
  | zero => intro os ps rs q; exact ⟨le_refl _, [], (List.append_nil _).symm⟩
  | succ n ih =>
    intro os ps rs q
    obtain ⟨hb1, t1, ht1⟩ := passStep_persist community (os.headD defaultOracle) ps rs q
    obtain ⟨hb2, t2, ht2⟩ := ih os.tail
      (passStep community (os.headD defaultOracle) ps rs q).1
      (passStep community (os.headD defaultOracle) ps rs q).2.1
      (passStep community (os.headD defaultOracle) ps rs q).2.2
    exact ⟨le_trans hb1 hb2, t1 ++ t2, by rw [bettingPass, ht2, ht1, List.append_assoc]⟩

/-- An automated player holding no pair, so the scored strength (0) does
not force a raise and the oracle's case-0 choice applies. -/
def bot1 : Player :=
  { name := "Bot 1", hand := (⟨"2", "Hearts"⟩, ⟨"7", "Spades"⟩), chips := 1000,
    folded := false, gamesWon := 0, handsPlayed := 0, handsWon := 0 }

/-- Counterexample to C4 as stated: starting a hand from the fresh state
(pot 0, currentBet 0, empty history), after the first betting-round pass
in which the single bot raises to 50, the state at the start of the
second betting round (the code between the passes, main.cpp lines
808-825, only logs interactions and deals community cards and never
touches pot/currentBet/actionHistory) has currentBet 50, pot 50 and a
non-empty history: the Round State of the second betting round is not
fresh. -/
theorem roundState_counterexample :
    (bettingPass [] 1 [(BotChoice.betRaise, HumanChoice.check)]
        [bot1] ⟨0, 0, []⟩ [0]).2.1.currentBet = 50 ∧
    (bettingPass [] 1 [(BotChoice.betRaise, HumanChoice.check)]
        [bot1] ⟨0, 0, []⟩ [0]).2.1.pot = 50 ∧
    (bettingPass [] 1 [(BotChoice.betRaise, HumanChoice.check)]
        [bot1] ⟨0, 0, []⟩ [0]).2.1.actionHistory ≠ [] ∧
    ¬ ((50 : Int) = 0) := by
  refine ⟨by decide, by decide, ?_, by decide⟩
  intro h
  exact absurd (congrArg List.length h) (by decide)

/-- The winner-selection loop of `showdown` (main.cpp lines 453-467):
scan players in roster order with `bestScore = -1` and `winner =
nullptr`; each non-folded player whose score strictly exceeds the best
so far becomes the candidate winner.  `i` is the roster index of the
head of the remaining list. -/
def findWinnerAux (community : List Card) :
    List Player → Nat → Int → Option Nat → Option Nat
  | [], _, _, w => w
  | p :: rest, i, best, w =>
    if p.folded then findWinnerAux community rest (i + 1) best w
    else if best < evaluateHandStrength p community then
      findWinnerAux community rest (i + 1) (evaluateHandStrength p community) (some i)
    else findWinnerAux community rest (i + 1) best w

/-- The pot award of `showdown` (main.cpp lines 469-475): the winner's
chips grow by the pot and both `gamesWon` and `handsWon` increment. -/
def award (p : Player) (pot : Int) : Player :=
  { p with chips := p.chips + pot, gamesWon := p.gamesWon + 1,
           handsWon := p.handsWon + 1 }

/-- Embedding of `showdown` (main.cpp lines 449-479): select the winner; if one
exists, award the pot and reset it to 0; otherwise leave everything
unchanged (the "all players folded" case, line 477). -/
def showdown (community : List Card) (ps : List Player) (pot : Int) :
    List Player × Int :=
  match findWinnerAux community ps 0 (-1) none with
  | some w => (ps.set w (award (ps.getD w defaultPlayer) pot), 0)
  | none => (ps, pot)

/-- The hand score of the player at roster index `j`. -/
def scoreAt (community : List Card) (l : List Player) (j : Nat) : Int :=
  evaluateHandStrength (l.getD j defaultPlayer) community

/-- The fold flag of the player at roster index `j`. -/
def foldedAt (l : List Player) (j : Nat) : Bool := (l.getD j defaultPlayer).folded

theorem contrib_nonneg (n : Nat) : 0 ≤ contrib n := by
  unfold contrib
  split_ifs <;> norm_num

theorem evaluateHandStrength_nonneg (p : Player) (community : List Card) :
    0 ≤ evaluateHandStrength p community := by
  unfold evaluateHandStrength
  apply List.sum_nonneg
  intro x hx
  simp only [List.mem_map] at hx
  obtain ⟨r, _, rfl⟩ := hx
  exact contrib_nonneg _

theorem findWinnerAux_none (community : List Card) :
    ∀ (l : List Player) (i : Nat) (best : Int) (w : Option Nat),
    (∀ p ∈ l, p.folded = true ∨ evaluateHandStrength p community ≤ best) →
    findWinnerAux community l i best w = w := by
  intro l
  induction l with
  | nil => intros; rfl
  | cons p rest ih =>
    intro i best w h
    have hp := h p (List.mem_cons_self p rest)
    have hrest : ∀ q ∈ rest, q.folded = true ∨ evaluateHandStrength q community ≤ best :=
      fun q hq => h q (List.mem_cons_of_mem p hq)
    dsimp only [findWinnerAux]
    by_cases hf : p.folded = true
    · rw [if_pos hf]
      exact ih _ _ _ hrest
    · rw [if_neg hf]
      have hle : evaluateHandStrength p community ≤ best := by
        rcases hp with h1 | h1
        · exact absurd h1 hf
        · exact h1
      rw [if_neg (by omega)]
      exact ih _ _ _ hrest

theorem findWinnerAux_some (community : List Card) :
    ∀ (l : List Player) (i : Nat) (best : Int) (w : Option Nat),
    (∃ k, k < l.length ∧ foldedAt l k = false ∧ best < scoreAt community l k) →
    ∃ k, k < l.length ∧
      findWinnerAux community l i best w = some (i + k) ∧
      foldedAt l k = false ∧ best < scoreAt community l k ∧
      (∀ j, j < k → foldedAt l j = false →
        scoreAt community l j < scoreAt community l k) ∧
      (∀ j, j < l.length → foldedAt l j = false →
        scoreAt community l j ≤ scoreAt community l k) := by
  intro l
  induction l with
  | nil =>
    intro i best w h
    obtain ⟨k, hk, _⟩ := h
    exact absurd hk (by simp)
  | cons p rest ih =>
    intro i best w h
    dsimp only [findWinnerAux]
    by_cases hf : p.folded = true
    · -- head folded: the witness index must point into the tail
      rw [if_pos hf]
      have hex : ∃ k, k < rest.length ∧ foldedAt rest k = false ∧
          best < scoreAt community rest k := by
        obtain ⟨k, hk, hkf, hks⟩ := h
        match k with
        | 0 => exact absurd hkf (by simp [foldedAt, hf])
        | k + 1 =>
          exact ⟨k, by simpa using hk,
            by simpa [foldedAt, List.getD_cons_succ] using hkf,
            by simpa [scoreAt, List.getD_cons_succ] using hks⟩
      obtain ⟨k, hk, hres, hkf, hks, hfirst, hmax⟩ := ih (i + 1) best w hex
      refine ⟨k + 1, by simpa using hk, ?_, ?_, ?_, ?_, ?_⟩
      · rw [hres]; congr 1; omega
      · simpa [foldedAt, List.getD_cons_succ] using hkf
      · simpa [scoreAt, List.getD_cons_succ] using hks
      · intro j hj hjf
        match j with
        | 0 => exact absurd hjf (by simp [foldedAt, hf])
        | j + 1 =>
          have := hfirst j (by omega)
            (by simpa [foldedAt, List.getD_cons_succ] using hjf)
          simpa [scoreAt, List.getD_cons_succ] using this
      · intro j hj hjf
        match j with
        | 0 => exact absurd hjf (by simp [foldedAt, hf])
        | j + 1 =>
          have := hmax j (by simpa using hj)
            (by simpa [foldedAt, List.getD_cons_succ] using hjf)
          simpa [scoreAt, List.getD_cons_succ] using this
    · rw [if_neg hf]
      by_cases hs : best < evaluateHandStrength p community
      · rw [if_pos hs]
        by_cases hex : ∃ k, k < rest.length ∧ foldedAt rest k = false ∧
            evaluateHandStrength p community < scoreAt community rest k
        · -- someone in the tail beats the head
          obtain ⟨k, hk, hres, hkf, hks, hfirst, hmax⟩ :=
            ih (i + 1) (evaluateHandStrength p community) (some i) hex
          refine ⟨k + 1, by simpa using hk, ?_, ?_, ?_, ?_, ?_⟩
          · rw [hres]; congr 1; omega
          · simpa [foldedAt, List.getD_cons_succ] using hkf
          · have : best < scoreAt community rest k := lt_trans hs hks
            simpa [scoreAt, List.getD_cons_succ] using this
          · intro j hj hjf
            match j with
            | 0 =>
              simpa [scoreAt, List.getD_cons_succ, List.getD_cons_zero] using hks
            | j + 1 =>
              have := hfirst j (by omega)
                (by simpa [foldedAt, List.getD_cons_succ] using hjf)
              simpa [scoreAt, List.getD_cons_succ] using this
          · intro j hj hjf
            match j with
            | 0 =>
              have := le_of_lt hks
              simpa [scoreAt, List.getD_cons_succ, List.getD_cons_zero] using this
            | j + 1 =>
              have := hmax j (by simpa using hj)
                (by simpa [foldedAt, List.getD_cons_succ] using hjf)
              simpa [scoreAt, List.getD_cons_succ] using this
        · -- nobody in the tail beats the head: the head wins
          push_neg at hex
          have hnone : findWinnerAux community rest (i + 1)
              (evaluateHandStrength p community) (some i) = some i := by
            apply findWinnerAux_none
            intro q hq
            obtain ⟨n, hn, hq1⟩ := List.mem_iff_getElem.mp hq
            by_cases hqf : q.folded = true
            · exact Or.inl hqf
            · right
              have := hex n hn
              rw [foldedAt, scoreAt, List.getD_eq_getElem rest defaultPlayer hn, hq1] at this
              have hq2 := this (by simpa using hqf)
              omega
          refine ⟨0, by simp, by rw [hnone, Nat.add_zero], by simpa [foldedAt] using hf,
            by simpa [scoreAt] using hs, by omega, ?_⟩
          intro j hj hjf
          match j with
          | 0 => exact le_refl _
          | j + 1 =>
            have hjr : j < rest.length := by simpa using hj
            have := hex j hjr
            rw [foldedAt, List.getD_cons_succ] at hjf
            have hle := this (by simpa [foldedAt] using hjf)
            rw [scoreAt, List.getD_cons_succ, scoreAt, List.getD_cons_zero]
            rw [scoreAt] at hle
            omega
      · -- head does not improve the running best
        rw [if_neg hs]
        have hex : ∃ k, k < rest.length ∧ foldedAt rest k = false ∧
            best < scoreAt community rest k := by
          obtain ⟨k, hk, hkf, hks⟩ := h
          match k with
          | 0 =>
            rw [scoreAt, List.getD_cons_zero] at hks
            omega
          | k + 1 =>
            exact ⟨k, by simpa using hk,
              by simpa [foldedAt, List.getD_cons_succ] using hkf,
              by simpa [scoreAt, List.getD_cons_succ] using hks⟩
        obtain ⟨k, hk, hres, hkf, hks, hfirst, hmax⟩ := ih (i + 1) best w hex
        refine ⟨k + 1, by simpa using hk, ?_, ?_, ?_, ?_, ?_⟩
        · rw [hres]; congr 1; omega
        · simpa [foldedAt, List.getD_cons_succ] using hkf
        · simpa [scoreAt, List.getD_cons_succ] using hks
        · intro j hj hjf
          match j with
          | 0 =>
            rw [scoreAt, List.getD_cons_zero, scoreAt, List.getD_cons_succ]
            have : scoreAt community rest k > best := hks
            rw [scoreAt] at this
            omega
          | j + 1 =>
            have := hfirst j (by omega)
              (by simpa [foldedAt, List.getD_cons_succ] using hjf)
            simpa [scoreAt, List.getD_cons_succ] using this
        · intro j hj hjf
          match j with
          | 0 =>
            rw [scoreAt, List.getD_cons_zero, scoreAt, List.getD_cons_succ]
            have : scoreAt community rest k > best := hks
            rw [scoreAt] at this
            omega
          | j + 1 =>
            have := hmax j (by simpa using hj)
              (by simpa [foldedAt, List.getD_cons_succ] using hjf)
            simpa [scoreAt, List.getD_cons_succ] using this

/-- C1: if at least one roster player has not folded, `showdown` elects
the winner `w`: the first (lowest-index) non-folded player attaining the
maximum hand score — `w`'s score strictly exceeds every earlier
non-folded player's score and is at least every non-folded player's
score — and gives `w` the whole pot (chips + pot, `gamesWon` and
`handsWon` each + 1) while resetting the pot to 0; if every player has
folded, players and pot are returned unchanged. -/
theorem showdown_spec (community : List Card) (ps : List Player) (pot : Int) :
    ((∃ i, i < ps.length ∧ foldedAt ps i = false) →
      ∃ w, w < ps.length ∧ foldedAt ps w = false ∧
        (∀ j, j < w → foldedAt ps j = false →
          scoreAt community ps j < scoreAt community ps w) ∧
        (∀ j, j < ps.length → foldedAt ps j = false →
          scoreAt community ps j ≤ scoreAt community ps w) ∧
        showdown community ps pot
          = (ps.set w (award (ps.getD w defaultPlayer) pot), 0)) ∧
    ((∀ i, i < ps.length → foldedAt ps i = true) →
      showdown community ps pot = (ps, pot)) := by
  constructor
  · intro h
    obtain ⟨i, hi, hif⟩ := h
    have hex : ∃ k, k < ps.length ∧ foldedAt ps k = false ∧
        (-1 : Int) < scoreAt community ps k := by
      refine ⟨i, hi, hif, ?_⟩
      have := evaluateHandStrength_nonneg (ps.getD i defaultPlayer) community
      rw [scoreAt]
      omega
    obtain ⟨k, hk, hres, hkf, _, hfirst, hmax⟩ :=
      findWinnerAux_some community ps 0 (-1) none hex
    refine ⟨k, hk, hkf, hfirst, hmax, ?_⟩
    unfold showdown
    rw [show (0 + k) = k from by omega] at hres
    rw [hres]
  · intro h
    have hnone : findWinnerAux community ps 0 (-1) none = none := by
      apply findWinnerAux_none
      intro q hq
      obtain ⟨n, hn, hq1⟩ := List.mem_iff_getElem.mp hq
      left
      have := h n hn
      rw [foldedAt, List.getD_eq_getElem ps defaultPlayer hn, hq1] at this
      exact this
    unfold showdown
    rw [hnone]

/-- Witness for C1 on a concrete roster: a folded player, the winner
(score 2) and a weaker live player (score 0); also the all-folded
case. -/
theorem showdown_spec_witness :
    (∃ w, w < ([foldedP1, bot1] : List Player).length ∧
      foldedAt [foldedP1, bot1] w = false ∧
      (∀ j, j < w → foldedAt [foldedP1, bot1] j = false →
        scoreAt [] [foldedP1, bot1] j < scoreAt [] [foldedP1, bot1] w) ∧
      (∀ j, j < ([foldedP1, bot1] : List Player).length →
        foldedAt [foldedP1, bot1] j = false →
        scoreAt [] [foldedP1, bot1] j ≤ scoreAt [] [foldedP1, bot1] w) ∧
      showdown [] [foldedP1, bot1] 100
        = ([foldedP1, bot1].set w (award ([foldedP1, bot1].getD w defaultPlayer) 100), 0)) ∧
    showdown [] [foldedP1, foldedP2] 100 = ([foldedP1, foldedP2], 100) := by
  constructor
  · exact (showdown_spec [] [foldedP1, bot1] 100).1 ⟨1, by decide, by decide⟩
  · apply (showdown_spec [] [foldedP1, foldedP2] 100).2
    intro i hi
    match i with
    | 0 => decide
    | 1 => decide
    | n + 2 => exact absurd hi (by simp)

/-- Descending chip order: `a` sorts no later than `b`.  This is the
comparison `L[i].chips >= R[j].chips` of `merge` (main.cpp line 612). -/
def chipGe (a b : Player) : Prop := b.chips ≤ a.chips

/-- Embedding of `merge` (main.cpp lines 596-628) expressed on the two copied halves:
take from the left while its head's chips are >= the right head's chips,
so the left element wins ties. -/
def mergeP : List Player → List Player → List Player
  | [], ys => ys
  | x :: xs, [] => x :: xs
  | x :: xs, y :: ys =>
    if y.chips ≤ x.chips then x :: mergeP xs (y :: ys)
    else y :: mergeP (x :: xs) ys

/-- Embedding of `mergeSort` (main.cpp lines 634-641): split the index range
`[left, right]` at `mid = left + (right - left) / 2` and merge the two
recursively sorted halves.  On a list of length `n ≥ 2` the left half
`arr[left..mid]` has `(n - 1) / 2 + 1 = (n + 1) / 2` elements. -/
def mergeSortP (l : List Player) : List Player :=
  if h : l.length ≤ 1 then l
  else
    mergeP (mergeSortP (l.take ((l.length + 1) / 2)))
           (mergeSortP (l.drop ((l.length + 1) / 2)))
termination_by l.length
decreasing_by
  · simp only [List.length_take]; omega
  · simp only [List.length_drop]; omega

theorem mergeP_perm : ∀ xs ys : List Player, (mergeP xs ys).Perm (xs ++ ys) := by
  intro xs
  induction xs with
  | nil => intro ys; simp [mergeP]
  | cons x xs ihx =>
    intro ys
    induction ys with
    | nil => simp [mergeP]
    | cons y ys ihy =>
      simp only [mergeP]
      split_ifs with h
      · exact (ihx (y :: ys)).cons x
      · exact (ihy.cons y).trans List.perm_middle.symm

theorem mergeP_sorted_fuel : ∀ (m : Nat) (xs ys : List Player),
    xs.length + ys.length ≤ m →
    List.Sorted chipGe xs → List.Sorted chipGe ys →
    List.Sorted chipGe (mergeP xs ys) := by
  intro m
  induction m with
  | zero =>
    intro xs ys hm hxs hys
    match xs, ys with
    | [], [] => simp [mergeP]
    | [], y :: ys => simp at hm
    | x :: xs, _ => simp at hm
  | succ m ih =>
    intro xs ys hm hxs hys
    match xs, ys with
    | [], ys => simpa [mergeP] using hys
    | x :: xs, [] => simpa [mergeP] using hxs
    | x :: xs, y :: ys =>
      simp only [mergeP]
      split_ifs with h
      · rw [List.sorted_cons]
        refine ⟨?_, ih xs (y :: ys)
          (by simp only [List.length_cons] at hm ⊢; omega) hxs.of_cons hys⟩
        intro b hb
        have hb2 : b ∈ xs ++ y :: ys := (mergeP_perm xs (y :: ys)).mem_iff.mp hb
        rcases List.mem_append.mp hb2 with hbx | hby
        · exact List.rel_of_sorted_cons hxs b hbx
        · rcases List.mem_cons.mp hby with rfl | hbys
          · exact h
          · exact le_trans (List.rel_of_sorted_cons hys b hbys) h
      · rw [List.sorted_cons]
        push_neg at h
        refine ⟨?_, ih (x :: xs) ys
          (by simp only [List.length_cons] at hm ⊢; omega) hxs hys.of_cons⟩
        intro b hb
        have hb2 : b ∈ (x :: xs) ++ ys := (mergeP_perm (x :: xs) ys).mem_iff.mp hb
        rcases List.mem_append.mp hb2 with hbx | hby
        · rcases List.mem_cons.mp hbx with rfl | hbxs
          · exact le_of_lt h
          · exact le_trans (List.rel_of_sorted_cons hxs b hbxs) (le_of_lt h)
        · exact List.rel_of_sorted_cons hys b hby

theorem mergeP_filter_fuel (c : Int) : ∀ (m : Nat) (xs ys : List Player),
    xs.length + ys.length ≤ m → List.Sorted chipGe xs →
    (mergeP xs ys).filter (fun p => p.chips == c)
      = xs.filter (fun p => p.chips == c) ++ ys.filter (fun p => p.chips == c) := by
  intro m
  induction m with
  | zero =>
    intro xs ys hm hxs
    match xs, ys with
    | [], [] => simp [mergeP]
    | [], y :: ys => simp at hm
    | x :: xs, _ => simp at hm
  | succ m ih =>
    intro xs ys hm hxs
    match xs, ys with
    | [], ys => simp [mergeP]
    | x :: xs, [] => simp [mergeP]
    | x :: xs, y :: ys =>
      simp only [mergeP]
      split_ifs with h
      · simp only [List.filter_cons]
        rw [ih xs (y :: ys) (by simp only [List.length_cons] at hm ⊢; omega) hxs.of_cons]
        cases hx : (x.chips == c) <;> simp [List.filter_cons]
      · push_neg at h
        have hrec := ih (x :: xs) ys
          (by simp only [List.length_cons] at hm ⊢; omega) hxs
        have hL : (y :: mergeP (x :: xs) ys).filter (fun p => p.chips == c)
            = (if (y.chips == c) = true then [y] else [])
              ++ ((x :: xs).filter (fun p => p.chips == c)
                  ++ ys.filter (fun p => p.chips == c)) := by
          rw [List.filter_cons, hrec]
          split_ifs <;> simp
        have hR : (y :: ys).filter (fun p => p.chips == c)
            = (if (y.chips == c) = true then [y] else [])
              ++ ys.filter (fun p => p.chips == c) := by
          rw [List.filter_cons]
          split_ifs <;> simp
        rw [hL, hR]
        cases hy : (y.chips == c)
        · simp [hy]
        · have hyc : y.chips = c := by simpa using hy
          have hempty : (x :: xs).filter (fun p => p.chips == c) = [] := by
            rw [List.filter_eq_nil_iff]
            intro a ha
            have hax : a.chips ≤ x.chips := by
              rcases List.mem_cons.mp ha with rfl | haxs
              · exact le_refl _
              · exact List.rel_of_sorted_cons hxs a haxs
            simp only [beq_iff_eq]
            omega
          rw [hempty]
          simp [hy]

theorem mergeSortP_props : ∀ (n : Nat) (l : List Player), l.length ≤ n →
    (mergeSortP l).Perm l ∧ List.Sorted chipGe (mergeSortP l) ∧
    (∀ c : Int, (mergeSortP l).filter (fun p => p.chips == c)
      = l.filter (fun p => p.chips == c)) := by
  intro n
  induction n with
  | zero =>
    intro l hl
    have hnil : l = [] := List.length_eq_zero.mp (Nat.le_zero.mp hl)
    subst hnil
    refine ⟨?_, ?_, ?_⟩ <;> simp [mergeSortP]
  | succ n ih =>
    intro l hl
    by_cases h1 : l.length ≤ 1
    · have he : mergeSortP l = l := by
        unfold mergeSortP; rw [dif_pos h1]
      refine ⟨by rw [he], ?_, fun c => by rw [he]⟩
      rw [he]
      match l, h1 with
      | [], _ => simp
      | [a], _ => simp
    · have he : mergeSortP l
          = mergeP (mergeSortP (l.take ((l.length + 1) / 2)))
                   (mergeSortP (l.drop ((l.length + 1) / 2))) := by
        rw [mergeSortP, dif_neg h1]
      have hlt : (l.take ((l.length + 1) / 2)).length ≤ n := by
        simp only [List.length_take]; omega
      have hld : (l.drop ((l.length + 1) / 2)).length ≤ n := by
        simp only [List.length_drop]; omega
      obtain ⟨hp1, hs1, hf1⟩ := ih _ hlt
      obtain ⟨hp2, hs2, hf2⟩ := ih _ hld
      refine ⟨?_, ?_, ?_⟩
      · rw [he]
        exact (mergeP_perm _ _).trans ((hp1.append hp2).trans
          (by rw [List.take_append_drop]))
      · rw [he]
        exact mergeP_sorted_fuel
          ((mergeSortP (l.take ((l.length + 1) / 2))).length
            + (mergeSortP (l.drop ((l.length + 1) / 2))).length)
          _ _ (le_refl _) hs1 hs2
      · intro c
        rw [he,
          mergeP_filter_fuel c
            ((mergeSortP (l.take ((l.length + 1) / 2))).length
              + (mergeSortP (l.drop ((l.length + 1) / 2))).length)
            _ _ (le_refl _) hs1,
          hf1 c, hf2 c, ← List.filter_append, List.take_append_drop]

/-- C8: the merge sort used for re-ranking returns a permutation of its
input, sorted by chip count in descending order, and it is stable: for
every chip value `c`, the players with exactly `c` chips appear in the
output in exactly their input order (so any two players with equal chip
counts keep their pre-sort relative order). -/
theorem mergeSort_spec (l : List Player) :
    (mergeSortP l).Perm l ∧ List.Sorted chipGe (mergeSortP l) ∧
    (∀ c : Int, (mergeSortP l).filter (fun p => p.chips == c)
      = l.filter (fun p => p.chips == c)) :=
  mergeSortP_props l.length l (le_refl _)

/-- The C++ `struct TreeNode` of main.cpp lines 649-656: a player plus left and
right children, with `leaf` standing for `nullptr`. -/
inductive PTree where
  | leaf : PTree
  | node : Player → PTree → PTree → PTree

/-- Embedding of `PlayerTree::insert` (main.cpp lines 671-681): recurse left exactly
when the new player's chips strictly exceed the current node's, right
otherwise (ties included). -/
def PTree.insert : PTree → Player → PTree
  | .leaf, p => .node p .leaf .leaf
  | .node q l r, p =>
    if q.chips < p.chips then .node q (l.insert p) r
    else .node q l (r.insert p)

/-- Embedding of `PlayerTree::inOrder` (main.cpp lines 686-691): left subtree, node,
right subtree. -/
def PTree.inOrder : PTree → List Player
  | .leaf => []
  | .node q l r => l.inOrder ++ q :: r.inOrder

/-- Repeated `PlayerTree::addPlayer` starting from the empty tree, the
way `main` builds the ranking snapshots (main.cpp lines 1012-1014,
1044-1046, 1058-1060). -/
def buildTree (ps : List Player) : PTree := ps.foldl PTree.insert .leaf

/-- The structural invariant the insertion rule maintains: everything in
a left subtree has strictly more chips than the node, everything in a
right subtree has at most as many. -/
def Inv : PTree → Prop
  | .leaf => True
  | .node q l r =>
    (∀ x ∈ l.inOrder, q.chips < x.chips) ∧
    (∀ x ∈ r.inOrder, x.chips ≤ q.chips) ∧ Inv l ∧ Inv r

theorem mem_inOrder_insert (p x : Player) :
    ∀ t : PTree, x ∈ (t.insert p).inOrder → x = p ∨ x ∈ t.inOrder := by
  intro t
  induction t with
  | leaf =>
    intro hx
    simp only [PTree.insert, PTree.inOrder] at hx
    simp at hx
    exact Or.inl hx
  | node q l r ihl ihr =>
    intro hx
    dsimp only [PTree.insert] at hx
    split_ifs at hx with hcmp
    · dsimp only [PTree.inOrder] at hx
      rcases List.mem_append.mp hx with hxl | hxr
      · rcases ihl hxl with h1 | h1
        · exact Or.inl h1
        · exact Or.inr (by dsimp only [PTree.inOrder]; exact List.mem_append.mpr (Or.inl h1))
      · exact Or.inr (by dsimp only [PTree.inOrder]; exact List.mem_append.mpr (Or.inr hxr))
    · dsimp only [PTree.inOrder] at hx
      rcases List.mem_append.mp hx with hxl | hxr
      · exact Or.inr (by dsimp only [PTree.inOrder]; exact List.mem_append.mpr (Or.inl hxl))
      · rcases List.mem_cons.mp hxr with rfl | hxr2
        · exact Or.inr (by dsimp only [PTree.inOrder]; simp)
        · rcases ihr hxr2 with h1 | h1
          · exact Or.inl h1
          · refine Or.inr ?_
            dsimp only [PTree.inOrder]
            exact List.mem_append.mpr (Or.inr (List.mem_cons.mpr (Or.inr h1)))

theorem insert_inv (p : Player) : ∀ t : PTree, Inv t → Inv (t.insert p) := by
  intro t
  induction t with
  | leaf =>
    intro _
    simp [PTree.insert, Inv, PTree.inOrder]
  | node q l r ihl ihr =>
    intro hinv
    obtain ⟨hql, hqr, hil, hir⟩ := hinv
    dsimp only [PTree.insert]
    split_ifs with hcmp
    · refine ⟨?_, hqr, ihl hil, hir⟩
      intro x hx
      rcases mem_inOrder_insert p x l hx with rfl | hxl
      · exact hcmp
      · exact hql x hxl
    · refine ⟨hql, ?_, hil, ihr hir⟩
      intro x hx
      rcases mem_inOrder_insert p x r hx with rfl | hxr
      · omega
      · exact hqr x hxr

theorem inv_inOrder_sorted : ∀ t : PTree, Inv t → List.Sorted chipGe t.inOrder := by
  intro t
  induction t with
  | leaf => intro _; simp [PTree.inOrder]
  | node q l r ihl ihr =>
    intro hinv
    obtain ⟨hql, hqr, hil, hir⟩ := hinv
    dsimp only [PTree.inOrder]
    refine List.pairwise_append.mpr ⟨ihl hil, ?_, ?_⟩
    · exact List.pairwise_cons.mpr ⟨fun b hb => hqr b hb, ihr hir⟩
    · intro a ha b hb
      have haq : q.chips < a.chips := hql a ha
      rcases List.mem_cons.mp hb with rfl | hbr
      · exact le_of_lt haq
      · have : b.chips ≤ q.chips := hqr b hbr
        exact le_trans this (le_of_lt haq)

theorem buildTree_inv (ps : List Player) : Inv (buildTree ps) := by
  have hgen : ∀ (l : List Player) (t : PTree), Inv t → Inv (l.foldl PTree.insert t) := by
    intro l
    induction l with
    | nil => intro t ht; exact ht
    | cons p rest ih =>
      intro t ht
      exact ih (t.insert p) (insert_inv p t ht)
  exact hgen ps .leaf trivial

theorem buildTree_sorted (ps : List Player) :
    List.Sorted chipGe (buildTree ps).inOrder :=
  inv_inOrder_sorted _ (buildTree_inv ps)

/-- Counterexample to the second half of C9 as stated: there is NO
insertion sequence — with or without equal chip counts — whose in-order
traversal fails to be sorted in non-increasing chip order, because the
strict-greater-left / less-or-equal-right rule is a genuine (duplicate
tolerating) search-tree discipline. -/
theorem playerTree_unsorted_counterexample :
    ¬ ∃ ps : List Player,
      (∃ a ∈ ps, ∃ b ∈ ps, a ≠ b ∧ a.chips = b.chips) ∧
      ¬ List.Sorted chipGe (buildTree ps).inOrder := by
  rintro ⟨ps, _, hns⟩
  exact hns (buildTree_sorted ps)

/-- C9 amended: insertion recurses left exactly when the new player's
chips strictly exceed the current node's and right otherwise; however,
for EVERY insertion sequence (equal chip counts included) the in-order
traversal of the resulting tree IS globally sorted in non-increasing
chip order. -/
theorem playerTree_spec :
    (∀ (q : Player) (l r : PTree) (p : Player),
      (PTree.node q l r).insert p
        = if q.chips < p.chips then PTree.node q (l.insert p) r
          else PTree.node q l (r.insert p)) ∧
    (∀ ps : List Player, List.Sorted chipGe (buildTree ps).inOrder) := by
  exact ⟨fun q l r p => rfl, fun ps => buildTree_sorted ps⟩

end Poker
